import Mathlib

/-!
Shallow embedding of `packages/preferences/src/browser/folders-preferences-provider.ts`
(`FoldersPreferencesProvider`), the multi-root workspace preference engine.

URIs and paths are modelled as lists of path segments (`Segs`); the canonical
identity string of a config-file URI is its segment list, since `toString` is
injective on these paths.  A JavaScript `Map` is modelled as an association
list in insertion order: `set` of a fresh key appends, `set` of a present key
updates in place, `delete` removes the entry; lookup takes the first match.
-/

set_option autoImplicit false

namespace Theia

/-- A JSON-like preference value; `jnull` models the JavaScript `null`,
absence of a value models `undefined`. -/
inductive JValue where
  | jnull
  | jbool (b : Bool)
  | jnum (n : Int)
  | jstr (s : String)
deriving DecidableEq

/-- A URI or filesystem path, as its list of segments. -/
abbrev Segs := List String

/-- A workspace root (`FileStat`): only its canonical URI matters here. -/
structure Folder where
  uri : Segs
deriving DecidableEq

/-- Modelled from the spec: `Path.relativity` lives in the platform URI library,
which is not under `src/`.  Per the spec, relativity is "a non-negative integer
measuring how deeply the resolver's owning folder encloses the resource path
(higher = more specific enclosing folder), or -1 if the folder does not enclose
the resource at all". -/
def relativity (folder resource : Segs) : Int :=
  if folder.isPrefixOf resource then (folder.length : Int) else -1

/-- Modelled from the spec: the Folder Config Resolver
(`folder-preference-provider.ts`, not under `src/`) backs one
(folder, config-directory, config-file) triple and exposes a readiness signal,
a config-URI lookup deciding applicability, single-key resolution, bulk read,
and an asynchronous write reporting success as a boolean. -/
structure FolderPreferenceProvider where
  folderUri : Segs
  configUri : Segs
  getConfigUriFn : Option Segs → Option Segs
  resolveFn : String → Option Segs → Option JValue × Option Segs
  preferences : List (String × JValue)
  writeOk : String → JValue → Option Segs → Bool
  ready : Except String Unit

instance : Inhabited FolderPreferenceProvider :=
  ⟨{ folderUri := []
     configUri := []
     getConfigUriFn := fun _ => none
     resolveFn := fun _ _ => (none, none)
     preferences := []
     writeOk := fun _ _ _ => false
     ready := Except.ok () }⟩

/-- The registry `providers : Map<string, FolderPreferenceProvider>`,
keyed by config-file URI, in insertion order. -/
abbrev Registry := List (Segs × FolderPreferenceProvider)

/-- JavaScript `Map.set`: update in place when the key is present,
append otherwise. -/
def mapSet {α β : Type} [BEq α] (m : List (α × β)) (k : α) (v : β) : List (α × β) :=
  if m.any (fun e => e.1 == k) then
    m.map (fun e => if e.1 == k then (k, v) else e)
  else m ++ [(k, v)]

/-- The directory axis `['.theia', '.vscode']` ("prefere theia over vscode"). -/
def configPaths : List String := [".theia", ".vscode"]

/-- The file axis `['launch.json', 'settings.json']` ("prefer launch over settings"). -/
def configFileNames : List String := ["launch.json", "settings.json"]

/-- State threaded through `updateProviders`: the registry, the `toDelete`
set (as the ordered list of its members), and — as instrumentation — the keys
for which the factory has been invoked. -/
structure UpdateState where
  registry : Registry
  toDelete : List Segs
  created : List Segs

/-- The body of the innermost loop of `updateProviders`: compute the config
URI, unmark it in `toDelete`, and create a provider if none is registered. -/
def visit (factory : Folder → Segs → FolderPreferenceProvider) (st : UpdateState)
    (folder : Folder) (configPath configFileName : String) : UpdateState :=
  let configUri := folder.uri ++ [configPath, configFileName]
  let st1 : UpdateState := { st with toDelete := st.toDelete.erase configUri }
  if (st1.registry.lookup configUri).isSome then st1
  else { st1 with
    registry := st1.registry ++ [(configUri, factory folder configUri)]
    created := st1.created ++ [configUri] }

/-- The two nested axis loops of `updateProviders` for one folder. -/
def visitFolder (factory : Folder → Segs → FolderPreferenceProvider)
    (st : UpdateState) (folder : Folder) : UpdateState :=
  configPaths.foldl (fun st1 configPath =>
    configFileNames.foldl (fun st2 configFileName =>
      visit factory st2 folder configPath configFileName) st1) st

/-- The final loop of `updateProviders`: for each key still in `toDelete`,
delete its entry from the registry and dispose the provider.  Returns the
resulting registry and the keys whose providers were disposed, in order. -/
def deletePhase : List Segs → Registry → Registry × List Segs
  | [], reg => (reg, [])
  | k :: ks, reg =>
    match reg.lookup k with
    | some _ =>
      let rest := deletePhase ks (reg.eraseP (fun e => e.1 == k))
      (rest.1, k :: rest.2)
    | none => deletePhase ks reg

/-- Result of one reconciliation: the new registry, the keys for which the
factory created a provider, and the keys whose providers were disposed. -/
structure UpdateResult where
  registry : Registry
  created : List Segs
  disposed : List Segs

/-- `updateProviders`: reconcile the registry against the current roots. -/
def updateProviders (factory : Folder → Segs → FolderPreferenceProvider)
    (roots : List Folder) (registry : Registry) : UpdateResult :=
  let st := roots.foldl (visitFolder factory) ⟨registry, registry.map Prod.fst, []⟩
  let del := deletePhase st.toDelete st.registry
  ⟨del.1, st.created, del.2⟩

/-- The four candidate config-file keys of one folder, in generation order. -/
def folderKeys (folder : Folder) : List Segs :=
  configPaths.flatMap (fun configPath =>
    configFileNames.map (fun configFileName => folder.uri ++ [configPath, configFileName]))

/-- The desired identity set of a root list, in generation order. -/
def desiredKeys (roots : List Folder) : List Segs :=
  roots.flatMap folderKeys

/-- The grouping map built inside `getProviders`:
relativity -> config-directory URI -> providers, both levels in insertion order. -/
abbrev RankMap := List (Int × List (Segs × List FolderPreferenceProvider))

/-- The body of the loop of `getProviders`: skip providers that do not apply or
whose folder relativity is below the running maximum; otherwise raise the
running maximum and record the provider under (relativity, config directory). -/
def rankStep (resourceUri : Segs) (acc : Int × RankMap)
    (provider : FolderPreferenceProvider) : Int × RankMap :=
  match provider.getConfigUriFn (some resourceUri) with
  | none => acc
  | some configUri =>
    let folderRelativity := relativity provider.folderUri resourceUri
    if 0 ≤ folderRelativity ∧ acc.1 ≤ folderRelativity then
      let configProviders := (acc.2.lookup folderRelativity).getD []
      let configPathUri := configUri.dropLast
      let folderProviders := ((configProviders.lookup configPathUri).getD []) ++ [provider]
      (folderRelativity,
        mapSet acc.2 folderRelativity (mapSet configProviders configPathUri folderProviders))
    else acc

/-- `getProviders`: rank the live providers for a resource and return the
first-inserted config-directory group at the final maximum relativity. -/
def getProviders (reg : Registry) (resourceUri : Option Segs) :
    List FolderPreferenceProvider :=
  match resourceUri with
  | none => []
  | some r =>
    let acc := (reg.map Prod.snd).foldl (rankStep r) (-1, [])
    match acc.2.lookup acc.1 with
    | some resultMap => (resultMap.head?.map Prod.snd).getD []
    | none => []

/-- The test `value !== undefined && value !== null` of `resolve`. -/
def isPresent : Option JValue → Bool
  | none => false
  | some JValue.jnull => false
  | some _ => true

/-- The loop of `resolve` over an already-ranked provider list. -/
def resolveList (preferenceName : String) (resourceUri : Option Segs) :
    List FolderPreferenceProvider → Option JValue × Option Segs
  | [] => (none, none)
  | p :: ps =>
    let r := p.resolveFn preferenceName resourceUri
    if isPresent r.1 then r else resolveList preferenceName resourceUri ps

/-- `resolve`: first ranked provider whose value is neither undefined nor null. -/
def resolve (reg : Registry) (preferenceName : String) (resourceUri : Option Segs) :
    Option JValue × Option Segs :=
  resolveList preferenceName resourceUri (getProviders reg resourceUri)

/-- Assignment of a single key/value pair into a JavaScript object modelled as
an insertion-ordered association list: update in place or append. -/
def assignOne (m : List (String × JValue)) (kv : String × JValue) :
    List (String × JValue) :=
  if m.any (fun e => e.1 == kv.1) then
    m.map (fun e => if e.1 == kv.1 then (e.1, kv.2) else e)
  else m ++ [kv]

/-- `Object.assign(m, prefs)`: keys of `prefs` overwrite those of `m`. -/
def objAssign (m prefs : List (String × JValue)) : List (String × JValue) :=
  prefs.foldl assignOne m

/-- `getPreferences`: shallow-merge the ranked providers' preference maps in
reverse priority order into an accumulator object. -/
def getPreferences (reg : Registry) (resourceUri : Option Segs) :
    List (String × JValue) :=
  ((getProviders reg resourceUri).reverse).foldl
    (fun result p => objAssign result p.preferences) []

/-- The loop of `setPreference` over an already-ranked provider list; the
second component instruments the loop with the providers whose write was
invoked, in order. -/
def setList (preferenceName : String) (value : JValue) (resourceUri : Option Segs) :
    List FolderPreferenceProvider → Bool × List FolderPreferenceProvider
  | [] => (false, [])
  | p :: ps =>
    if p.writeOk preferenceName value resourceUri then (true, [p])
    else
      let rest := setList preferenceName value resourceUri ps
      (rest.1, p :: rest.2)

/-- `setPreference`: try each ranked provider's write in priority order and
stop at the first success.  The boolean is the source's return value; the list
records which providers' writes were invoked. -/
def setPreference (reg : Registry) (preferenceName : String) (value : JValue)
    (resourceUri : Option Segs) : Bool × List FolderPreferenceProvider :=
  setList preferenceName value resourceUri (getProviders reg resourceUri)

/-- `provider.ready.catch(e => console.error(e))`: a rejected readiness is
logged and converted into a resolved promise. -/
def caught : Except String Unit → Except String Unit
  | Except.ok u => Except.ok u
  | Except.error _ => Except.ok ()

/-- `Promise.all` on settled outcomes: the first rejection, if any, else
resolution once every element has resolved. -/
def promiseAll : List (Except String Unit) → Except String Unit
  | [] => Except.ok ()
  | r :: rs =>
    match r with
    | Except.error e => Except.error e
    | Except.ok _ => promiseAll rs

/-- The aggregate readiness computed by `init` over the registered providers. -/
def aggregateReady (reg : Registry) : Except String Unit :=
  promiseAll ((reg.map Prod.snd).map (fun p => caught p.ready))

/-! Concrete providers and registries used to instantiate the theorems. -/

/-- A concrete resolver whose applicability is "resource inside the folder",
resolving and reading from a fixed preference object. -/
def mkProvider (folder : Folder) (configUri : Segs) (prefs : List (String × JValue))
    (writes : Bool) : FolderPreferenceProvider where
  folderUri := folder.uri
  configUri := configUri
  getConfigUriFn := fun r =>
    match r with
    | some rp => if folder.uri.isPrefixOf rp then some configUri else none
    | none => none
  resolveFn := fun k _ => (prefs.lookup k, some configUri)
  preferences := prefs
  writeOk := fun _ _ _ => writes
  ready := Except.ok ()

/-- A factory whose primary-directory settings file defines `key=1` and whose
secondary-directory settings file defines `key=2`, nothing else. -/
def c4Factory (folder : Folder) (configUri : Segs) : FolderPreferenceProvider :=
  mkProvider folder configUri
    (if configUri == folder.uri ++ [".theia", "settings.json"] then
      [("key", JValue.jnum 1)]
     else if configUri == folder.uri ++ [".vscode", "settings.json"] then
      [("key", JValue.jnum 2)]
     else []) false

/-- A workspace folder `/root/a`. -/
def folderA : Folder := ⟨["root", "a"]⟩

/-- A workspace folder `/root/b`, sibling of `folderA`. -/
def folderB : Folder := ⟨["root", "b"]⟩

/-- A resource under `folderA`. -/
def resA : Segs := ["root", "a", "src", "main.ts"]

/-- The registry obtained by reconciling an empty registry against `[folderA]`
with `c4Factory`. -/
def demoRegA : Registry := (updateProviders c4Factory [folderA] []).registry

/-- The registry obtained by reconciling an empty registry against
`[folderA, folderB]` with `c4Factory`. -/
def demoRegAB : Registry := (updateProviders c4Factory [folderA, folderB] []).registry

/-- A factory whose primary-directory launch file defines `{a:1}` and whose
primary-directory settings file defines `{a:2, b:3}`, nothing else. -/
def c5Factory (folder : Folder) (configUri : Segs) : FolderPreferenceProvider :=
  mkProvider folder configUri
    (if configUri == folder.uri ++ [".theia", "launch.json"] then
      [("a", JValue.jnum 1)]
     else if configUri == folder.uri ++ [".theia", "settings.json"] then
      [("a", JValue.jnum 2), ("b", JValue.jnum 3)]
     else []) false

/-- The registry obtained by reconciling an empty registry against `[folderA]`
with `c5Factory`. -/
def demoRegC5 : Registry := (updateProviders c5Factory [folderA] []).registry

/-- A settings provider of `folderA` defining `k=1`. -/
def pA : FolderPreferenceProvider :=
  mkProvider folderA ["root", "a", ".theia", "settings.json"] [("k", JValue.jnum 1)] false

/-- A settings provider of `folderB` defining `k=99`. -/
def pB1 : FolderPreferenceProvider :=
  mkProvider folderB ["root", "b", ".theia", "settings.json"] [("k", JValue.jnum 99)] false

/-- A settings provider of `folderB` defining `k=42` instead. -/
def pB2 : FolderPreferenceProvider :=
  mkProvider folderB ["root", "b", ".theia", "settings.json"] [("k", JValue.jnum 42)] false

/-- A registry with a settings resolver for each of the sibling folders. -/
def regS1 : Registry := [(pA.configUri, pA), (pB1.configUri, pB1)]

/-- The same registry except that `folderB`'s resolver carries other values. -/
def regS2 : Registry := [(pA.configUri, pA), (pB2.configUri, pB2)]

/-- The desired (folder, key) items of one folder, in generation order. -/
def folderItems (folder : Folder) : List (Folder × Segs) :=
  (folderKeys folder).map (fun k => (folder, k))

/-- The desired (folder, key) items of a root list, in generation order. -/
def desiredItems (roots : List Folder) : List (Folder × Segs) :=
  roots.flatMap folderItems

/-- `visit`, reformulated on one desired (folder, key) item. -/
def visitItem (factory : Folder → Segs → FolderPreferenceProvider)
    (st : UpdateState) (it : Folder × Segs) : UpdateState :=
  let st1 : UpdateState := { st with toDelete := st.toDelete.erase it.2 }
  if (st1.registry.lookup it.2).isSome then st1
  else { st1 with
    registry := st1.registry ++ [(it.2, factory it.1 it.2)]
    created := st1.created ++ [it.2] }

/-! Theorems. -/

section LookupLemmas

variable {α : Type} {β : Type} [BEq α] [LawfulBEq α]

theorem lookup_isSome_iff (l : List (α × β)) (k : α) :
    (l.lookup k).isSome = true ↔ k ∈ l.map Prod.fst := by
  induction l with
  | nil => simp [List.lookup]
  | cons e l ih =>
    obtain ⟨k1, v⟩ := e
    by_cases hk : k = k1
    · subst hk
      simp [List.lookup]
    · have hb : (k == k1) = false := by simp [hk]
      simp [List.lookup, hb, hk, ih]

theorem lookup_eq_none_iff (l : List (α × β)) (k : α) :
    l.lookup k = none ↔ k ∉ l.map Prod.fst := by
  rw [← lookup_isSome_iff]
  exact Option.not_isSome_iff_eq_none.symm

theorem lookup_append_left (l1 l2 : List (α × β)) (k : α)
    (h : k ∈ l1.map Prod.fst) : (l1 ++ l2).lookup k = l1.lookup k := by
  induction l1 with
  | nil => simp at h
  | cons e l1 ih =>
    obtain ⟨k1, v⟩ := e
    by_cases hk : k = k1
    · simp [List.lookup, hk]
    · have h1 : k ∈ l1.map Prod.fst := by
        simpa [hk] using h
      simp [List.lookup, hk, ih h1]

theorem eraseP_key_eq_filter (l : List (α × β)) (k : α)
    (h : (l.map Prod.fst).Nodup) :
    l.eraseP (fun e => e.1 == k) = l.filter (fun e => !(e.1 == k)) := by
  induction l with
  | nil => rfl
  | cons e l ih =>
    obtain ⟨k1, v⟩ := e
    simp only [List.map_cons, List.nodup_cons] at h
    by_cases hk : k1 = k
    · subst hk
      have : l.filter (fun e => !(e.1 == k1)) = l := by
        rw [List.filter_eq_self]
        intro e he
        have : e.1 ≠ k1 := fun hc => h.1 (hc ▸ List.mem_map_of_mem Prod.fst he)
        simpa using this
      simp [List.eraseP_cons, List.filter_cons, this]
    · simp [List.eraseP_cons, List.filter_cons, hk, ih h.2]

theorem lookup_filter_key (l : List (α × β)) (a k : α) :
    (l.filter (fun e => !(e.1 == k))).lookup a =
      if a == k then none else l.lookup a := by
  induction l with
  | nil => simp [List.lookup]
  | cons e l ih =>
    obtain ⟨k1, v⟩ := e
    by_cases h1 : k1 = k
    · subst h1
      by_cases ha : a = k1
      · subst ha
        simp [List.filter_cons, ih]
      · have hb : (a == k1) = false := by simp [ha]
        simp [List.filter_cons, List.lookup, ha, hb, ih]
    · have hb1 : (k1 == k) = false := by simp [h1]
      by_cases ha : a = k1
      · subst ha
        have hb2 : (a == k) = false := by simp [h1]
        simp [List.filter_cons, List.lookup, hb1, hb2]
      · have hb3 : (a == k1) = false := by simp [ha]
        simp [List.filter_cons, List.lookup, hb1, hb3, ih]

theorem mem_keys_filter_ne (l : List (α × β)) (a k : α) :
    a ∈ (l.filter (fun e => !(e.1 == k))).map Prod.fst ↔
      a ∈ l.map Prod.fst ∧ a ≠ k := by
  induction l with
  | nil => simp
  | cons e l ih =>
    obtain ⟨k1, v⟩ := e
    by_cases h1 : k1 = k
    · subst h1
      simp only [List.filter_cons]
      by_cases ha : a = k1 <;> simp [ha, ih]
    · simp only [List.filter_cons]
      by_cases ha : a = k1
      · subst ha
        simp [h1, ih]
      · simp [h1, ha, ih]

end LookupLemmas

theorem setList_eq (k : String) (v : JValue) (ru : Option Segs)
    (ps : List FolderPreferenceProvider) :
    setList k v ru ps =
      (ps.any (fun p => p.writeOk k v ru),
       ps.takeWhile (fun p => !(p.writeOk k v ru))
         ++ (ps.dropWhile (fun p => !(p.writeOk k v ru))).take 1) := by
  induction ps with
  | nil => rfl
  | cons p ps ih =>
    cases hp : p.writeOk k v ru with
    | true => simp [setList, hp]
    | false => simp [setList, hp, ih]

theorem filter_takeWhile_not {α : Type} (p : α → Bool) (l : List α) :
    (l.takeWhile (fun a => !(p a))).filter p = [] := by
  rw [List.filter_eq_nil_iff]
  intro a ha
  have := List.mem_takeWhile_imp ha
  simpa using this

/-- C1: a call to `setPreference` invokes writes along the ranked list exactly
up to and including the first provider whose write succeeds (so a success at
the launch-file resolver stops the loop before the settings-file resolver),
reports success exactly when some ranked provider's write succeeds, and at
most one invoked write succeeds. -/
theorem setPreference_writes_at_most_one (reg : Registry) (k : String) (v : JValue)
    (ru : Option Segs) :
    setPreference reg k v ru =
      ((getProviders reg ru).any (fun p => p.writeOk k v ru),
       (getProviders reg ru).takeWhile (fun p => !(p.writeOk k v ru))
         ++ ((getProviders reg ru).dropWhile (fun p => !(p.writeOk k v ru))).take 1)
    ∧ ((setPreference reg k v ru).2.filter (fun p => p.writeOk k v ru)).length ≤ 1 := by
  refine ⟨setList_eq k v ru _, ?_⟩
  rw [setPreference, setList_eq]
  rw [List.filter_append, filter_takeWhile_not]
  simpa using le_trans (List.length_filter_le _ _) (List.length_take_le _ _)

theorem resolveList_eq_find (k : String) (ru : Option Segs)
    (ps : List FolderPreferenceProvider)
    (h : ∀ p ∈ ps, (p.resolveFn k ru).2 = some p.configUri) :
    resolveList k ru ps =
      match ps.find? (fun p => isPresent (p.resolveFn k ru).1) with
      | some p => ((p.resolveFn k ru).1, some p.configUri)
      | none => (none, none) := by
  induction ps with
  | nil => rfl
  | cons p ps ih =>
    cases hp : isPresent (p.resolveFn k ru).1 with
    | true =>
      have h2 := h p (List.mem_cons_self p ps)
      simp [resolveList, List.find?, hp, Prod.ext_iff, h2]
    | false =>
      simp [resolveList, List.find?, hp, ih (fun q hq => h q (List.mem_cons_of_mem p hq))]

/-- C3: `resolve` returns the value of the first provider in the ranked list
whose value is neither undefined nor null, paired with that provider's backing
config-file URI (assuming each ranked resolver reports its own backing URI),
and the empty result when no ranked provider supplies such a value; only the
single winning group returned by `getProviders` is consulted. -/
theorem resolve_first_present (reg : Registry) (k : String) (ru : Option Segs)
    (h : ∀ p ∈ getProviders reg ru, (p.resolveFn k ru).2 = some p.configUri) :
    resolve reg k ru =
      match (getProviders reg ru).find? (fun p => isPresent (p.resolveFn k ru).1) with
      | some p => ((p.resolveFn k ru).1, some p.configUri)
      | none => (none, none) :=
  resolveList_eq_find k ru _ h

/-- Witness for C3 at the concrete registry of `folderA`. -/
theorem resolve_first_present_witness :
    (∀ p ∈ getProviders demoRegA (some resA),
      (p.resolveFn "key" (some resA)).2 = some p.configUri)
    ∧ resolve demoRegA "key" (some resA) =
        match (getProviders demoRegA (some resA)).find?
            (fun p => isPresent (p.resolveFn "key" (some resA)).1) with
        | some p => ((p.resolveFn "key" (some resA)).1, some p.configUri)
        | none => (none, none) :=
  ⟨by decide, resolve_first_present demoRegA "key" (some resA) (by decide)⟩

/-- C10: with no resource URI the ranked list is empty, so `setPreference`
invokes no provider's write and returns `false`. -/
theorem setPreference_without_resource (reg : Registry) (k : String) (v : JValue) :
    getProviders reg none = [] ∧ setPreference reg k v none = (false, []) :=
  ⟨rfl, rfl⟩

theorem promiseAll_map_caught (l : List (Except String Unit)) :
    promiseAll (l.map caught) = Except.ok () := by
  induction l with
  | nil => rfl
  | cons r rs ih => cases r <;> simp [caught, promiseAll, ih]

/-- C9: the aggregate readiness of `init` resolves for every registry: each
provider's readiness is awaited with its rejection caught, so one failing
resolver never fails the aggregate. -/
theorem aggregateReady_always_ok (reg : Registry) :
    aggregateReady reg = Except.ok () := by
  have h := promiseAll_map_caught ((reg.map Prod.snd).map (fun p => p.ready))
  simpa [aggregateReady, List.map_map] using h

/-! Reconciliation lemmas. -/

theorem visit_eq_visitItem (factory : Folder → Segs → FolderPreferenceProvider)
    (st : UpdateState) (folder : Folder) (cp cf : String) :
    visit factory st folder cp cf = visitItem factory st (folder, folder.uri ++ [cp, cf]) := rfl

theorem visitFolder_eq (factory : Folder → Segs → FolderPreferenceProvider)
    (st : UpdateState) (folder : Folder) :
    visitFolder factory st folder = (folderItems folder).foldl (visitItem factory) st := rfl

theorem foldl_visitFolder_eq (factory : Folder → Segs → FolderPreferenceProvider)
    (roots : List Folder) (st : UpdateState) :
    roots.foldl (visitFolder factory) st =
      (desiredItems roots).foldl (visitItem factory) st := by
  induction roots generalizing st with
  | nil => rfl
  | cons f roots ih =>
    rw [List.foldl_cons, visitFolder_eq, desiredItems, List.flatMap_cons, List.foldl_append,
      ← desiredItems, ih]

theorem desiredItems_map_snd (roots : List Folder) :
    (desiredItems roots).map Prod.snd = desiredKeys roots := by
  simp [desiredItems, desiredKeys, folderItems, List.map_flatMap, List.map_map, Function.comp]

theorem desiredKeys_length (roots : List Folder) :
    (desiredKeys roots).length = 4 * roots.length := by
  induction roots with
  | nil => rfl
  | cons f roots ih =>
    have h4 : (folderKeys f).length = 4 := rfl
    simp only [desiredKeys, List.flatMap_cons, List.length_append, h4, List.length_cons]
    rw [← desiredKeys] at *
    omega

theorem visitItem_toDelete (factory : Folder → Segs → FolderPreferenceProvider)
    (st : UpdateState) (it : Folder × Segs) :
    (visitItem factory st it).toDelete = st.toDelete.erase it.2 := by
  simp only [visitItem]
  split <;> rfl

theorem visitItem_present (factory : Folder → Segs → FolderPreferenceProvider)
    (st : UpdateState) (it : Folder × Segs) (h : it.2 ∈ st.registry.map Prod.fst) :
    (visitItem factory st it).registry = st.registry ∧
    (visitItem factory st it).created = st.created := by
  have hs : (st.registry.lookup it.2).isSome = true := (lookup_isSome_iff _ _).mpr h
  simp [visitItem, hs]

theorem visitItem_absent (factory : Folder → Segs → FolderPreferenceProvider)
    (st : UpdateState) (it : Folder × Segs) (h : it.2 ∉ st.registry.map Prod.fst) :
    (visitItem factory st it).registry = st.registry ++ [(it.2, factory it.1 it.2)] ∧
    (visitItem factory st it).created = st.created ++ [it.2] := by
  have hs : st.registry.lookup it.2 = none := (lookup_eq_none_iff _ _).mpr h
  simp [visitItem, hs]

theorem foldVisit_keys_mem (factory : Folder → Segs → FolderPreferenceProvider)
    (items : List (Folder × Segs)) (st : UpdateState) (k : Segs) :
    k ∈ (items.foldl (visitItem factory) st).registry.map Prod.fst ↔
      k ∈ st.registry.map Prod.fst ∨ k ∈ items.map Prod.snd := by
  induction items generalizing st with
  | nil => simp
  | cons it items ih =>
    rw [List.foldl_cons, ih]
    by_cases h : it.2 ∈ st.registry.map Prod.fst
    · rw [(visitItem_present factory st it h).1]
      have hit : k = it.2 → k ∈ st.registry.map Prod.fst := fun he => he ▸ h
      simp only [List.map_cons, List.mem_cons]
      tauto
    · rw [(visitItem_absent factory st it h).1]
      simp only [List.map_append, List.map_cons, List.mem_append, List.mem_cons,
        List.map_nil, List.mem_singleton, List.not_mem_nil, or_false]
      tauto

theorem foldVisit_keys_nodup (factory : Folder → Segs → FolderPreferenceProvider)
    (items : List (Folder × Segs)) (st : UpdateState)
    (h : (st.registry.map Prod.fst).Nodup) :
    ((items.foldl (visitItem factory) st).registry.map Prod.fst).Nodup := by
  induction items generalizing st with
  | nil => exact h
  | cons it items ih =>
    rw [List.foldl_cons]
    apply ih
    by_cases hm : it.2 ∈ st.registry.map Prod.fst
    · rw [(visitItem_present factory st it hm).1]
      exact h
    · rw [(visitItem_absent factory st it hm).1]
      simp [List.nodup_append, h, hm]

theorem foldVisit_lookup_preserved (factory : Folder → Segs → FolderPreferenceProvider)
    (items : List (Folder × Segs)) (st : UpdateState) (k : Segs)
    (hk : k ∈ st.registry.map Prod.fst) :
    ((items.foldl (visitItem factory) st).registry).lookup k = st.registry.lookup k := by
  induction items generalizing st with
  | nil => rfl
  | cons it items ih =>
    rw [List.foldl_cons]
    by_cases hm : it.2 ∈ st.registry.map Prod.fst
    · have e := (visitItem_present factory st it hm).1
      rw [ih _ (by rw [e]; exact hk), e]
    · have e := (visitItem_absent factory st it hm).1
      have hk2 : k ∈ (visitItem factory st it).registry.map Prod.fst := by
        rw [e]
        simp [hk]
      rw [ih _ hk2, e, lookup_append_left _ _ _ hk]

theorem foldVisit_created_preserved (factory : Folder → Segs → FolderPreferenceProvider)
    (items : List (Folder × Segs)) (st : UpdateState) (k : Segs)
    (hk : k ∈ st.registry.map Prod.fst) (hc : k ∉ st.created) :
    k ∉ (items.foldl (visitItem factory) st).created := by
  induction items generalizing st with
  | nil => exact hc
  | cons it items ih =>
    rw [List.foldl_cons]
    by_cases hm : it.2 ∈ st.registry.map Prod.fst
    · obtain ⟨e1, e2⟩ := visitItem_present factory st it hm
      exact ih _ (by rw [e1]; exact hk) (by rw [e2]; exact hc)
    · obtain ⟨e1, e2⟩ := visitItem_absent factory st it hm
      refine ih _ (by rw [e1]; simp [hk]) ?_
      rw [e2]
      simp only [List.mem_append, List.mem_singleton]
      rintro (hin | hin)
      · exact hc hin
      · exact hm (hin ▸ hk)

theorem foldVisit_toDelete_mem (factory : Folder → Segs → FolderPreferenceProvider)
    (items : List (Folder × Segs)) (st : UpdateState) (k : Segs)
    (hnd : st.toDelete.Nodup) :
    k ∈ (items.foldl (visitItem factory) st).toDelete ↔
      k ∈ st.toDelete ∧ k ∉ items.map Prod.snd := by
  induction items generalizing st with
  | nil => simp
  | cons it items ih =>
    rw [List.foldl_cons,
      ih _ (by rw [visitItem_toDelete]; exact List.Nodup.erase _ hnd),
      visitItem_toDelete, hnd.mem_erase_iff]
    simp only [List.map_cons, List.mem_cons]
    tauto

theorem foldVisit_toDelete_nodup (factory : Folder → Segs → FolderPreferenceProvider)
    (items : List (Folder × Segs)) (st : UpdateState) (hnd : st.toDelete.Nodup) :
    (items.foldl (visitItem factory) st).toDelete.Nodup := by
  induction items generalizing st with
  | nil => exact hnd
  | cons it items ih =>
    rw [List.foldl_cons]
    exact ih _ (by rw [visitItem_toDelete]; exact List.Nodup.erase _ hnd)

theorem deletePhase_disposed_sublist (ks : List Segs) (reg : Registry) :
    (deletePhase ks reg).2.Sublist ks := by
  induction ks generalizing reg with
  | nil => exact List.Sublist.refl _
  | cons k1 ks ih =>
    simp only [deletePhase]
    cases h : reg.lookup k1 with
    | some p => exact List.Sublist.cons₂ _ (ih _)
    | none => exact List.Sublist.cons _ (ih _)

theorem deletePhase_disposed_mem (ks : List Segs) (reg : Registry) (k : Segs)
    (hks : ks.Nodup) (hreg : (reg.map Prod.fst).Nodup) :
    k ∈ (deletePhase ks reg).2 ↔ k ∈ ks ∧ k ∈ reg.map Prod.fst := by
  induction ks generalizing reg with
  | nil => simp [deletePhase]
  | cons k1 ks ih =>
    simp only [deletePhase]
    have hk1ks : k1 ∉ ks := (List.nodup_cons.mp hks).1
    have hks2 : ks.Nodup := (List.nodup_cons.mp hks).2
    cases h : reg.lookup k1 with
    | some p =>
      have hk1 : k1 ∈ reg.map Prod.fst := (lookup_isSome_iff reg k1).mp (by simp [h])
      rw [eraseP_key_eq_filter reg k1 hreg]
      have hnd2 : ((reg.filter (fun e => !(e.1 == k1))).map Prod.fst).Nodup :=
        List.Nodup.sublist (List.Sublist.map _ (List.filter_sublist _)) hreg
      simp only [List.mem_cons, ih _ hks2 hnd2, mem_keys_filter_ne]
      constructor
      · rintro (he | ⟨h1, h2, _⟩)
        · exact ⟨Or.inl he, he ▸ hk1⟩
        · exact ⟨Or.inr h1, h2⟩
      · rintro ⟨he | h1, h2⟩
        · exact Or.inl he
        · refine Or.inr ⟨h1, h2, fun he => ?_⟩
          exact hk1ks (he ▸ h1)
    | none =>
      have hk1n : k1 ∉ reg.map Prod.fst := (lookup_eq_none_iff reg k1).mp h
      rw [ih _ hks2 hreg]
      simp only [List.mem_cons]
      constructor
      · rintro ⟨h1, h2⟩
        exact ⟨Or.inr h1, h2⟩
      · rintro ⟨he | h1, h2⟩
        · exact absurd (he ▸ h2) hk1n
        · exact ⟨h1, h2⟩

theorem deletePhase_lookup (ks : List Segs) (reg : Registry) (k : Segs)
    (hks : ks.Nodup) (hreg : (reg.map Prod.fst).Nodup) :
    (deletePhase ks reg).1.lookup k = if k ∈ ks then none else reg.lookup k := by
  induction ks generalizing reg with
  | nil => simp [deletePhase]
  | cons k1 ks ih =>
    simp only [deletePhase]
    have hk1ks : k1 ∉ ks := (List.nodup_cons.mp hks).1
    have hks2 : ks.Nodup := (List.nodup_cons.mp hks).2
    cases h : reg.lookup k1 with
    | some p =>
      rw [eraseP_key_eq_filter reg k1 hreg]
      have hnd2 : ((reg.filter (fun e => !(e.1 == k1))).map Prod.fst).Nodup :=
        List.Nodup.sublist (List.Sublist.map _ (List.filter_sublist _)) hreg
      rw [ih _ hks2 hnd2, lookup_filter_key]
      by_cases hm : k ∈ ks
      · simp [hm]
      · by_cases he : k = k1
        · subst he
          simp [hm]
        · have hb : (k == k1) = false := by simp [he]
          simp [hm, he, hb]
    | none =>
      rw [ih _ hks2 hreg]
      by_cases hm : k ∈ ks
      · simp [hm]
      · by_cases he : k = k1
        · subst he
          simp [hm, h]
        · simp [hm, he]

theorem deletePhase_keys_mem (ks : List Segs) (reg : Registry) (k : Segs)
    (hks : ks.Nodup) (hreg : (reg.map Prod.fst).Nodup) :
    k ∈ (deletePhase ks reg).1.map Prod.fst ↔ k ∈ reg.map Prod.fst ∧ k ∉ ks := by
  rw [← lookup_isSome_iff, deletePhase_lookup ks reg k hks hreg]
  by_cases hm : k ∈ ks <;> simp [hm, lookup_isSome_iff]

theorem deletePhase_keys_nodup (ks : List Segs) (reg : Registry)
    (hreg : (reg.map Prod.fst).Nodup) :
    ((deletePhase ks reg).1.map Prod.fst).Nodup := by
  induction ks generalizing reg with
  | nil => exact hreg
  | cons k1 ks ih =>
    simp only [deletePhase]
    cases h : reg.lookup k1 with
    | some p =>
      exact ih _ (List.Nodup.sublist (List.Sublist.map _ (List.eraseP_sublist _)) hreg)
    | none => exact ih _ hreg

theorem updateProviders_eq (factory : Folder → Segs → FolderPreferenceProvider)
    (roots : List Folder) (registry : Registry) :
    updateProviders factory roots registry =
      ⟨(deletePhase ((desiredItems roots).foldl (visitItem factory)
            ⟨registry, registry.map Prod.fst, []⟩).toDelete
          ((desiredItems roots).foldl (visitItem factory)
            ⟨registry, registry.map Prod.fst, []⟩).registry).1,
        ((desiredItems roots).foldl (visitItem factory)
            ⟨registry, registry.map Prod.fst, []⟩).created,
        (deletePhase ((desiredItems roots).foldl (visitItem factory)
            ⟨registry, registry.map Prod.fst, []⟩).toDelete
          ((desiredItems roots).foldl (visitItem factory)
            ⟨registry, registry.map Prod.fst, []⟩).registry).2⟩ := by
  simp only [updateProviders, foldl_visitFolder_eq]

/-- C2: after a reconciliation the registry's keys are exactly the desired
identity set of the current roots, with no duplicate identity, so it holds at
most 4·F entries for F roots. -/
theorem updateProviders_registry_invariant
    (factory : Folder → Segs → FolderPreferenceProvider)
    (roots : List Folder) (registry : Registry)
    (hnd : (registry.map Prod.fst).Nodup) :
    ((updateProviders factory roots registry).registry.map Prod.fst).Nodup
    ∧ (∀ k, k ∈ (updateProviders factory roots registry).registry.map Prod.fst ↔
        k ∈ desiredKeys roots)
    ∧ (updateProviders factory roots registry).registry.length ≤ 4 * roots.length := by
  have e := updateProviders_eq factory roots registry
  set st0 : UpdateState := ⟨registry, registry.map Prod.fst, []⟩ with hst0
  set st := (desiredItems roots).foldl (visitItem factory) st0 with hstdef
  have hnd_st : (st.registry.map Prod.fst).Nodup := foldVisit_keys_nodup factory _ st0 hnd
  have hkeys_st : ∀ k, k ∈ st.registry.map Prod.fst ↔
      k ∈ registry.map Prod.fst ∨ k ∈ desiredKeys roots := by
    intro k
    have h := foldVisit_keys_mem factory (desiredItems roots) st0 k
    rwa [desiredItems_map_snd] at h
  have htdnd : st.toDelete.Nodup := foldVisit_toDelete_nodup factory _ st0 hnd
  have htd : ∀ k, k ∈ st.toDelete ↔
      k ∈ registry.map Prod.fst ∧ k ∉ desiredKeys roots := by
    intro k
    have h := foldVisit_toDelete_mem factory (desiredItems roots) st0 k hnd
    rwa [desiredItems_map_snd] at h
  have hfin_mem : ∀ k,
      k ∈ (updateProviders factory roots registry).registry.map Prod.fst ↔
        k ∈ desiredKeys roots := by
    intro k
    rw [e]
    show k ∈ (deletePhase st.toDelete st.registry).1.map Prod.fst ↔ _
    rw [deletePhase_keys_mem _ _ _ htdnd hnd_st, hkeys_st, htd]
    by_cases hd : k ∈ desiredKeys roots <;>
      by_cases hr : k ∈ registry.map Prod.fst <;> simp [hd, hr]
  have hfin_nd :
      ((updateProviders factory roots registry).registry.map Prod.fst).Nodup := by
    rw [e]
    show ((deletePhase st.toDelete st.registry).1.map Prod.fst).Nodup
    exact deletePhase_keys_nodup _ _ hnd_st
  refine ⟨hfin_nd, hfin_mem, ?_⟩
  have hsub : (updateProviders factory roots registry).registry.map Prod.fst ⊆
      desiredKeys roots := fun k hk => (hfin_mem k).mp hk
  have hlen := (List.Nodup.subperm hfin_nd hsub).length_le
  rw [List.length_map] at hlen
  rw [← desiredKeys_length roots]
  exact hlen

/-- Witness for C2 over the single folder `folderA` and an empty registry. -/
theorem updateProviders_registry_invariant_witness :
    ((([] : Registry).map Prod.fst).Nodup)
    ∧ (((updateProviders c4Factory [folderA] []).registry.map Prod.fst).Nodup
      ∧ (∀ k, k ∈ (updateProviders c4Factory [folderA] []).registry.map Prod.fst ↔
          k ∈ desiredKeys [folderA])
      ∧ (updateProviders c4Factory [folderA] []).registry.length ≤ 4 * [folderA].length) :=
  ⟨by decide, updateProviders_registry_invariant c4Factory [folderA] [] (by decide)⟩

/-- C7: a registered identity that is also desired keeps its very provider
instance across a reconciliation — its registry entry is unchanged, it is not
re-created, and it is not disposed. -/
theorem updateProviders_preserves_existing
    (factory : Folder → Segs → FolderPreferenceProvider)
    (roots : List Folder) (registry : Registry) (k : Segs)
    (hnd : (registry.map Prod.fst).Nodup)
    (hmem : k ∈ registry.map Prod.fst) (hdes : k ∈ desiredKeys roots) :
    (updateProviders factory roots registry).registry.lookup k = registry.lookup k
    ∧ k ∉ (updateProviders factory roots registry).created
    ∧ k ∉ (updateProviders factory roots registry).disposed := by
  have e := updateProviders_eq factory roots registry
  set st0 : UpdateState := ⟨registry, registry.map Prod.fst, []⟩ with hst0
  set st := (desiredItems roots).foldl (visitItem factory) st0 with hstdef
  have hnd_st : (st.registry.map Prod.fst).Nodup := foldVisit_keys_nodup factory _ st0 hnd
  have htdnd : st.toDelete.Nodup := foldVisit_toDelete_nodup factory _ st0 hnd
  have htd : ∀ k1, k1 ∈ st.toDelete ↔
      k1 ∈ registry.map Prod.fst ∧ k1 ∉ desiredKeys roots := by
    intro k1
    have h := foldVisit_toDelete_mem factory (desiredItems roots) st0 k1 hnd
    rwa [desiredItems_map_snd] at h
  have hknotd : k ∉ st.toDelete := fun hc => ((htd k).mp hc).2 hdes
  refine ⟨?_, ?_, ?_⟩
  · rw [e]
    show (deletePhase st.toDelete st.registry).1.lookup k = registry.lookup k
    rw [deletePhase_lookup _ _ _ htdnd hnd_st, if_neg hknotd]
    exact foldVisit_lookup_preserved factory _ st0 k hmem
  · rw [e]
    show k ∉ st.created
    exact foldVisit_created_preserved factory _ st0 k hmem (by simp)
  · rw [e]
    show k ∉ (deletePhase st.toDelete st.registry).2
    rw [deletePhase_disposed_mem _ _ _ htdnd hnd_st]
    rintro ⟨hc, _⟩
    exact hknotd hc

/-- Witness for C7: re-reconciling the unchanged folder `folderA` keeps the
`.theia/settings.json` provider entry, creating and disposing nothing for it. -/
theorem updateProviders_preserves_existing_witness :
    ((demoRegA.map Prod.fst).Nodup
      ∧ (["root", "a", ".theia", "settings.json"] : Segs) ∈ demoRegA.map Prod.fst
      ∧ (["root", "a", ".theia", "settings.json"] : Segs) ∈ desiredKeys [folderA])
    ∧ ((updateProviders c4Factory [folderA] demoRegA).registry.lookup
          ["root", "a", ".theia", "settings.json"] =
        demoRegA.lookup ["root", "a", ".theia", "settings.json"]
      ∧ (["root", "a", ".theia", "settings.json"] : Segs) ∉
          (updateProviders c4Factory [folderA] demoRegA).created
      ∧ (["root", "a", ".theia", "settings.json"] : Segs) ∉
          (updateProviders c4Factory [folderA] demoRegA).disposed) :=
  ⟨⟨by decide, by decide, by decide⟩,
    updateProviders_preserves_existing c4Factory [folderA] demoRegA
      ["root", "a", ".theia", "settings.json"] (by decide) (by decide) (by decide)⟩

/-- C8: a reconciliation disposes exactly the registered identities that are
no longer desired, each exactly once, and a disposed identity has no entry —
in particular no replacement — in the resulting registry. -/
theorem updateProviders_disposes_removed
    (factory : Folder → Segs → FolderPreferenceProvider)
    (roots : List Folder) (registry : Registry)
    (hnd : (registry.map Prod.fst).Nodup) :
    (updateProviders factory roots registry).disposed.Nodup
    ∧ (∀ k, k ∈ (updateProviders factory roots registry).disposed ↔
        (k ∈ registry.map Prod.fst ∧ k ∉ desiredKeys roots))
    ∧ (∀ k ∈ (updateProviders factory roots registry).disposed,
        k ∉ (updateProviders factory roots registry).registry.map Prod.fst) := by
  have e := updateProviders_eq factory roots registry
  set st0 : UpdateState := ⟨registry, registry.map Prod.fst, []⟩ with hst0
  set st := (desiredItems roots).foldl (visitItem factory) st0 with hstdef
  have hnd_st : (st.registry.map Prod.fst).Nodup := foldVisit_keys_nodup factory _ st0 hnd
  have hkeys_st : ∀ k, k ∈ st.registry.map Prod.fst ↔
      k ∈ registry.map Prod.fst ∨ k ∈ desiredKeys roots := by
    intro k
    have h := foldVisit_keys_mem factory (desiredItems roots) st0 k
    rwa [desiredItems_map_snd] at h
  have htdnd : st.toDelete.Nodup := foldVisit_toDelete_nodup factory _ st0 hnd
  have htd : ∀ k, k ∈ st.toDelete ↔
      k ∈ registry.map Prod.fst ∧ k ∉ desiredKeys roots := by
    intro k
    have h := foldVisit_toDelete_mem factory (desiredItems roots) st0 k hnd
    rwa [desiredItems_map_snd] at h
  have hdisp_mem : ∀ k, k ∈ (updateProviders factory roots registry).disposed ↔
      (k ∈ registry.map Prod.fst ∧ k ∉ desiredKeys roots) := by
    intro k
    rw [e]
    show k ∈ (deletePhase st.toDelete st.registry).2 ↔ _
    rw [deletePhase_disposed_mem _ _ _ htdnd hnd_st]
    constructor
    · rintro ⟨h1, _⟩
      exact (htd k).mp h1
    · intro h1
      exact ⟨(htd k).mpr h1, (hkeys_st k).mpr (Or.inl h1.1)⟩
  refine ⟨?_, hdisp_mem, ?_⟩
  · rw [e]
    show (deletePhase st.toDelete st.registry).2.Nodup
    exact List.Nodup.sublist (deletePhase_disposed_sublist _ _) htdnd
  · intro k hk
    have h1 := (hdisp_mem k).mp hk
    rw [e]
    show k ∉ (deletePhase st.toDelete st.registry).1.map Prod.fst
    rw [deletePhase_keys_mem _ _ _ htdnd hnd_st]
    rintro ⟨_, hc⟩
    exact hc ((htd k).mpr h1)

/-! Merge lemmas for `getPreferences`. -/

theorem any_key_iff {α : Type} {β : Type} [BEq α] [LawfulBEq α]
    (m : List (α × β)) (k : α) :
    (m.any (fun e => e.1 == k)) = true ↔ k ∈ m.map Prod.fst := by
  simp [List.any_eq_true]

theorem lookup_cons {α : Type} {β : Type} [BEq α] (k1 : α) (v : β)
    (l : List (α × β)) (a : α) :
    ((k1, v) :: l).lookup a = if a == k1 then some v else l.lookup a := by
  cases h : a == k1 <;> simp [List.lookup, h]

theorem lookup_append2 {α : Type} {β : Type} [BEq α] [LawfulBEq α]
    (l1 l2 : List (α × β)) (a : α) :
    (l1 ++ l2).lookup a = (l1.lookup a).or (l2.lookup a) := by
  induction l1 with
  | nil => simp [List.lookup]
  | cons e l1 ih =>
    obtain ⟨k1, v⟩ := e
    by_cases hk : a = k1
    · subst hk
      simp [List.lookup]
    · have hb : (a == k1) = false := by simp [hk]
      simp [List.lookup, hb, ih]

theorem lookup_mapValue (m : List (String × JValue)) (k0 : String) (v0 : JValue)
    (a : String) :
    (m.map (fun e => if e.1 == k0 then (e.1, v0) else e)).lookup a =
      if a == k0 then (m.lookup a).map (fun _ => v0) else m.lookup a := by
  induction m with
  | nil => cases h : a == k0 <;> simp [List.lookup, h]
  | cons e m ih =>
    obtain ⟨k1, w⟩ := e
    rw [List.map_cons]
    cases h1 : (k1 == k0) with
    | true =>
      cases ha : (a == k1) with
      | true =>
        have ha0 : (a == k0) = true := by
          have e1 := eq_of_beq h1
          have e2 := eq_of_beq ha
          simp [e1, e2]
        simp [lookup_cons, h1, ha, ha0]
      | false =>
        have ha0 : (a == k0) = false := by
          have e1 := eq_of_beq h1
          rw [← e1]
          exact ha
        simp [lookup_cons, h1, ha, ha0]
        simpa [ha0] using ih
    | false =>
      cases ha : (a == k1) with
      | true =>
        have ha0 : (a == k0) = false := by
          have e2 := eq_of_beq ha
          rw [e2]
          exact h1
        simp [lookup_cons, h1, ha, ha0]
      | false =>
        simp [lookup_cons, h1, ha]
        simpa using ih

theorem lookup_assignOne (m : List (String × JValue)) (kv : String × JValue)
    (a : String) :
    (assignOne m kv).lookup a = if a == kv.1 then some kv.2 else m.lookup a := by
  unfold assignOne
  split
  case isTrue hany =>
    rw [lookup_mapValue]
    by_cases ha : a = kv.1
    · have hb : (a == kv.1) = true := by simp [ha]
      simp only [hb, if_true]
      have hmem : a ∈ m.map Prod.fst := by
        rw [← any_key_iff]
        rw [ha]
        exact hany
      have hsome : (m.lookup a).isSome = true := (lookup_isSome_iff m a).mpr hmem
      obtain ⟨w, hw⟩ := Option.isSome_iff_exists.mp hsome
      rw [hw]
      rfl
    · have hb : (a == kv.1) = false := by simp [ha]
      simp [hb]
  case isFalse hany =>
    rw [lookup_append2]
    by_cases ha : a = kv.1
    · have hnone : m.lookup a = none := by
        rw [lookup_eq_none_iff]
        rw [← any_key_iff] at *
        rw [ha]
        simpa using hany
      have hb : (a == kv.1) = true := by simp [ha]
      simp [hnone, hb, List.lookup]
    · have hb : (a == kv.1) = false := by simp [ha]
      simp [hb, List.lookup, Option.or_none]

theorem lookup_objAssign (m prefs : List (String × JValue)) (a : String)
    (hnd : (prefs.map Prod.fst).Nodup) :
    (objAssign m prefs).lookup a = (prefs.lookup a).or (m.lookup a) := by
  induction prefs generalizing m with
  | nil => simp [objAssign, List.lookup]
  | cons kv prefs ih =>
    obtain ⟨k1, v1⟩ := kv
    simp only [List.map_cons, List.nodup_cons] at hnd
    have step : objAssign m ((k1, v1) :: prefs) = objAssign (assignOne m (k1, v1)) prefs := rfl
    rw [step, ih _ hnd.2, lookup_assignOne]
    by_cases ha : a = k1
    · have hnp : prefs.lookup a = none := by
        rw [lookup_eq_none_iff]
        rw [ha]
        exact hnd.1
      have hb : (a == k1) = true := by simp [ha]
      simp [hnp, List.lookup, hb]
    · have hb : (a == k1) = false := by simp [ha]
      simp [List.lookup, hb]

theorem mergedList_lookup (ps : List FolderPreferenceProvider) (a : String)
    (hnd : ∀ p ∈ ps, (p.preferences.map Prod.fst).Nodup) :
    (ps.reverse.foldl (fun result p => objAssign result p.preferences) []).lookup a =
      ps.findSome? (fun p => p.preferences.lookup a) := by
  induction ps with
  | nil => simp [List.lookup]
  | cons p ps ih =>
    rw [List.reverse_cons, List.foldl_append, List.foldl_cons, List.foldl_nil,
      lookup_objAssign _ _ _ (hnd p (List.mem_cons_self p ps)),
      ih (fun q hq => hnd q (List.mem_cons_of_mem p hq))]
    cases hfp : p.preferences.lookup a <;> simp [List.findSome?_cons, hfp]

/-- C5: for every resource and key, the merged object of `getPreferences` maps
the key to the value of the first (highest-priority) ranked resolver defining
it — higher-priority resolvers win collisions, non-colliding keys are unioned
(assuming each resolver's preference object has no duplicate key). -/
theorem getPreferences_merges (reg : Registry) (ru : Option Segs) (a : String)
    (hnd : ∀ p ∈ getProviders reg ru, (p.preferences.map Prod.fst).Nodup) :
    (getPreferences reg ru).lookup a =
      (getProviders reg ru).findSome? (fun p => p.preferences.lookup a) :=
  mergedList_lookup _ a hnd

/-- Witness for C5 at a folder whose launch file defines `{a:1}` and settings
file defines `{a:2, b:3}`. -/
theorem getPreferences_merges_witness :
    (∀ p ∈ getProviders demoRegC5 (some resA), (p.preferences.map Prod.fst).Nodup)
    ∧ (getPreferences demoRegC5 (some resA)).lookup "a" =
        (getProviders demoRegC5 (some resA)).findSome? (fun p => p.preferences.lookup "a") :=
  ⟨by decide, getPreferences_merges demoRegC5 (some resA) "a" (by decide)⟩

/-! Ranking lemmas for `getProviders`. -/

theorem lookup_mem {α : Type} {β : Type} [BEq α] [LawfulBEq α]
    (l : List (α × β)) (k : α) (v : β) (h : l.lookup k = some v) : (k, v) ∈ l := by
  induction l with
  | nil => simp [List.lookup] at h
  | cons e l ih =>
    obtain ⟨k1, w⟩ := e
    rw [lookup_cons] at h
    by_cases hk : k = k1
    · subst hk
      simp only [beq_self_eq_true, if_true] at h
      obtain rfl : w = v := by simpa using h
      exact List.mem_cons_self _ _
    · have hb : (k == k1) = false := by simp [hk]
      rw [hb] at h
      simp only [Bool.false_eq_true, if_false] at h
      exact List.mem_cons_of_mem _ (ih h)

theorem mem_mapSet {α : Type} {β : Type} [BEq α] [LawfulBEq α]
    (m : List (α × β)) (k : α) (v : β) (e : α × β) (he : e ∈ mapSet m k v) :
    e ∈ m ∨ e = (k, v) := by
  unfold mapSet at he
  split at he
  · obtain ⟨e0, he0, heq⟩ := List.mem_map.mp he
    by_cases hk : (e0.1 == k) = true
    · right
      rw [← heq, if_pos hk]
    · left
      rw [← heq, if_neg hk]
      exact he0
  · rcases List.mem_append.mp he with h1 | h1
    · exact Or.inl h1
    · right
      simpa using h1

theorem rankStep_preserves_rel (r : Segs) (acc : Int × RankMap)
    (p : FolderPreferenceProvider)
    (hacc : ∀ e ∈ acc.2, ∀ d ∈ e.2, ∀ q ∈ d.2, 0 ≤ relativity q.folderUri r) :
    ∀ e ∈ (rankStep r acc p).2, ∀ d ∈ e.2, ∀ q ∈ d.2, 0 ≤ relativity q.folderUri r := by
  unfold rankStep
  cases hcfg : p.getConfigUriFn (some r) with
  | none => exact hacc
  | some c =>
    dsimp only
    split
    case isTrue hcond =>
      intro e he d hd q hq
      rcases mem_mapSet _ _ _ _ he with he1 | rfl
      · exact hacc e he1 d hd q hq
      · rcases mem_mapSet _ _ _ _ hd with hd1 | rfl
        · cases hl : acc.2.lookup (relativity p.folderUri r) with
          | none =>
            rw [hl] at hd1
            simp at hd1
          | some m0 =>
            rw [hl] at hd1
            have hm0 := lookup_mem _ _ _ hl
            exact hacc _ hm0 d (by simpa using hd1) q hq
        · rcases List.mem_append.mp hq with hq1 | hq1
          · cases hl : acc.2.lookup (relativity p.folderUri r) with
            | none =>
              rw [hl] at hq1
              simp [List.lookup] at hq1
            | some m0 =>
              rw [hl] at hq1
              rw [Option.getD_some] at hq1
              have hm0 := lookup_mem _ _ _ hl
              cases hl2 : m0.lookup c.dropLast with
              | none =>
                rw [hl2] at hq1
                simp at hq1
              | some l0 =>
                rw [hl2] at hq1
                have hl0 := lookup_mem _ _ _ hl2
                exact hacc _ hm0 _ hl0 q (by simpa using hq1)
          · obtain rfl : q = p := by simpa using hq1
            exact hcond.1
    case isFalse => exact hacc

theorem foldRank_rel (r : Segs) (ps : List FolderPreferenceProvider)
    (acc : Int × RankMap)
    (hacc : ∀ e ∈ acc.2, ∀ d ∈ e.2, ∀ q ∈ d.2, 0 ≤ relativity q.folderUri r) :
    ∀ e ∈ (ps.foldl (rankStep r) acc).2, ∀ d ∈ e.2, ∀ q ∈ d.2,
      0 ≤ relativity q.folderUri r := by
  induction ps generalizing acc with
  | nil => exact hacc
  | cons p ps ih =>
    rw [List.foldl_cons]
    exact ih _ (rankStep_preserves_rel r acc p hacc)

theorem getProviders_rel_nonneg (reg : Registry) (r : Segs) :
    ∀ p ∈ getProviders reg (some r), 0 ≤ relativity p.folderUri r := by
  intro p hp
  simp only [getProviders] at hp
  cases hl : ((reg.map Prod.snd).foldl (rankStep r) (-1, [])).2.lookup
      ((reg.map Prod.snd).foldl (rankStep r) (-1, [])).1 with
  | none =>
    rw [hl] at hp
    simp at hp
  | some rm =>
    rw [hl] at hp
    dsimp only at hp
    cases hh : rm.head? with
    | none =>
      rw [hh] at hp
      simp at hp
    | some d =>
      rw [hh] at hp
      have hpd : p ∈ d.2 := by simpa using hp
      have hdm : d ∈ rm := List.mem_of_mem_head? (by simp [hh])
      have hrm := lookup_mem _ _ _ hl
      exact foldRank_rel r (reg.map Prod.snd) (-1, []) (by simp) _ hrm d hdm p hpd

theorem rankStep_skip (r : Segs) (acc : Int × RankMap) (p : FolderPreferenceProvider)
    (hrel : relativity p.folderUri r = -1) : rankStep r acc p = acc := by
  unfold rankStep
  cases hcfg : p.getConfigUriFn (some r) with
  | none => rfl
  | some c =>
    dsimp only
    rw [hrel, if_neg]
    rintro ⟨h0, _⟩
    omega

theorem foldRank_congr (r : Segs) (ps1 ps2 : List FolderPreferenceProvider)
    (h : List.Forall₂ (fun p1 p2 => p1 = p2 ∨
        (relativity p1.folderUri r = -1 ∧ relativity p2.folderUri r = -1)) ps1 ps2)
    (acc : Int × RankMap) :
    ps1.foldl (rankStep r) acc = ps2.foldl (rankStep r) acc := by
  induction h generalizing acc with
  | nil => rfl
  | cons hp hrest ih =>
    rcases hp with rfl | ⟨h1, h2⟩
    · rw [List.foldl_cons, List.foldl_cons]
      exact ih _
    · rw [List.foldl_cons, List.foldl_cons, rankStep_skip r acc _ h1,
        rankStep_skip r acc _ h2]
      exact ih _

theorem getProviders_congr (reg1 reg2 : Registry) (r : Segs)
    (h : List.Forall₂ (fun p1 p2 => p1 = p2 ∨
        (relativity p1.folderUri r = -1 ∧ relativity p2.folderUri r = -1))
      (reg1.map Prod.snd) (reg2.map Prod.snd)) :
    getProviders reg1 (some r) = getProviders reg2 (some r) := by
  simp only [getProviders]
  rw [foldRank_congr r _ _ h]

/-- C6: the ranked list only ever contains resolvers whose folder encloses the
resource, and two registries that agree except on resolvers of non-enclosing
folders (relativity -1) rank identically and resolve identically — so a
sibling folder's resolver values never influence the result. -/
theorem resolve_sibling_independent (reg1 reg2 : Registry) (r : Segs) (k : String)
    (h : List.Forall₂ (fun p1 p2 => p1 = p2 ∨
        (relativity p1.folderUri r = -1 ∧ relativity p2.folderUri r = -1))
      (reg1.map Prod.snd) (reg2.map Prod.snd)) :
    (∀ p ∈ getProviders reg1 (some r), 0 ≤ relativity p.folderUri r)
    ∧ getProviders reg1 (some r) = getProviders reg2 (some r)
    ∧ resolve reg1 k (some r) = resolve reg2 k (some r) := by
  have hg := getProviders_congr reg1 reg2 r h
  refine ⟨getProviders_rel_nonneg reg1 r, hg, ?_⟩
  rw [resolve, resolve, hg]

/-! Lemmas for the primary-directory tie-break scenario. -/

theorem beq_append_pair_false (l : Segs) (a b c d : String)
    (h : ¬(a = c ∧ b = d)) :
    ((l ++ [a, b]) == (l ++ [c, d])) = false := by
  rw [beq_eq_false_iff_ne]
  intro hc
  apply h
  have h2 := List.append_cancel_left hc
  simpa using h2

theorem updateProviders_single (factory : Folder → Segs → FolderPreferenceProvider)
    (folder : Folder) :
    (updateProviders factory [folder] []).registry =
      [(folder.uri ++ [".theia", "launch.json"],
          factory folder (folder.uri ++ [".theia", "launch.json"])),
       (folder.uri ++ [".theia", "settings.json"],
          factory folder (folder.uri ++ [".theia", "settings.json"])),
       (folder.uri ++ [".vscode", "launch.json"],
          factory folder (folder.uri ++ [".vscode", "launch.json"])),
       (folder.uri ++ [".vscode", "settings.json"],
          factory folder (folder.uri ++ [".vscode", "settings.json"]))] := by
  have h21 := beq_append_pair_false folder.uri ".theia" "settings.json" ".theia" "launch.json"
    (by simp)
  have h31 := beq_append_pair_false folder.uri ".vscode" "launch.json" ".theia" "launch.json"
    (by simp)
  have h32 := beq_append_pair_false folder.uri ".vscode" "launch.json" ".theia" "settings.json"
    (by simp)
  have h41 := beq_append_pair_false folder.uri ".vscode" "settings.json" ".theia" "launch.json"
    (by simp)
  have h42 := beq_append_pair_false folder.uri ".vscode" "settings.json" ".theia" "settings.json"
    (by simp)
  have h43 := beq_append_pair_false folder.uri ".vscode" "settings.json" ".vscode" "launch.json"
    (by simp)
  simp [updateProviders, visitFolder, visit, configPaths, configFileNames, deletePhase,
    List.lookup, h21, h31, h32, h41, h42, h43]

theorem getProviders_c4 (folder : Folder) (r : Segs)
    (h : folder.uri.isPrefixOf r = true) :
    getProviders (updateProviders c4Factory [folder] []).registry (some r) =
      [c4Factory folder (folder.uri ++ [".theia", "launch.json"]),
       c4Factory folder (folder.uri ++ [".theia", "settings.json"])] := by
  have hpre : folder.uri <+: r := by
    rw [← List.isPrefixOf_iff_prefix]
    exact h
  have hL0 : (0 : Int) ≤ (folder.uri.length : Int) := Int.natCast_nonneg _
  have hLm1 : (-1 : Int) ≤ (folder.uri.length : Int) := by omega
  have hvt : ((folder.uri ++ [".vscode"]) == (folder.uri ++ [".theia"])) = false := by
    rw [beq_eq_false_iff_ne]
    intro hc
    have h2 := List.append_cancel_left hc
    simp at h2
  rw [updateProviders_single]
  simp [getProviders, rankStep, c4Factory, mkProvider, relativity, h, hpre, hL0, hLm1, hvt,
    mapSet, List.lookup, lookup_cons]

/-- C4: for a folder whose primary-tool-directory settings file defines
`key=1` and whose secondary-directory settings file defines `key=2`, resolving
`key` for a resource under the folder yields `1` from the primary directory's
settings file: the first-inserted directory group at the maximum relativity is
selected, and insertion order puts `.theia` before `.vscode`. -/
theorem resolve_theia_settings_wins (folder : Folder) (r : Segs)
    (h : folder.uri.isPrefixOf r = true) :
    resolve (updateProviders c4Factory [folder] []).registry "key" (some r) =
      (some (JValue.jnum 1), some (folder.uri ++ [".theia", "settings.json"])) := by
  rw [resolve, getProviders_c4 folder r h]
  have hne1 : ((folder.uri ++ [".theia", "launch.json"]) ==
      (folder.uri ++ [".theia", "settings.json"])) = false :=
    beq_append_pair_false _ _ _ _ _ (by simp)
  have hne2 : ((folder.uri ++ [".theia", "launch.json"]) ==
      (folder.uri ++ [".vscode", "settings.json"])) = false :=
    beq_append_pair_false _ _ _ _ _ (by simp)
  simp [resolveList, c4Factory, mkProvider, isPresent, List.lookup, hne1, hne2]

/-- Witness for C4 at `folderA` and a resource under it. -/
theorem resolve_theia_settings_wins_witness :
    folderA.uri.isPrefixOf resA = true
    ∧ resolve (updateProviders c4Factory [folderA] []).registry "key" (some resA) =
        (some (JValue.jnum 1), some (folderA.uri ++ [".theia", "settings.json"])) :=
  ⟨by decide, resolve_theia_settings_wins folderA resA (by decide)⟩

/-- Witness for C6: sibling folders `/root/a` and `/root/b`, the latter's
settings resolver carrying different values in the two registries. -/
theorem resolve_sibling_independent_witness :
    List.Forall₂ (fun p1 p2 => p1 = p2 ∨
        (relativity p1.folderUri resA = -1 ∧ relativity p2.folderUri resA = -1))
      (regS1.map Prod.snd) (regS2.map Prod.snd)
    ∧ ((∀ p ∈ getProviders regS1 (some resA), 0 ≤ relativity p.folderUri resA)
      ∧ getProviders regS1 (some resA) = getProviders regS2 (some resA)
      ∧ resolve regS1 "k" (some resA) = resolve regS2 "k" (some resA)) := by
  have hf : List.Forall₂ (fun p1 p2 => p1 = p2 ∨
      (relativity p1.folderUri resA = -1 ∧ relativity p2.folderUri resA = -1))
      (regS1.map Prod.snd) (regS2.map Prod.snd) := by
    refine List.Forall₂.cons (Or.inl rfl)
      (List.Forall₂.cons (Or.inr ⟨?_, ?_⟩) List.Forall₂.nil) <;> decide
  exact ⟨hf, resolve_sibling_independent regS1 regS2 resA "k" hf⟩

/-- Witness for C8: removing `folderB` from the roots. -/
theorem updateProviders_disposes_removed_witness :
    ((demoRegAB.map Prod.fst).Nodup)
    ∧ ((updateProviders c4Factory [folderA] demoRegAB).disposed.Nodup
      ∧ (∀ k, k ∈ (updateProviders c4Factory [folderA] demoRegAB).disposed ↔
          (k ∈ demoRegAB.map Prod.fst ∧ k ∉ desiredKeys [folderA]))
      ∧ (∀ k ∈ (updateProviders c4Factory [folderA] demoRegAB).disposed,
          k ∉ (updateProviders c4Factory [folderA] demoRegAB).registry.map Prod.fst)) :=
  ⟨by decide, updateProviders_disposes_removed c4Factory [folderA] demoRegAB (by decide)⟩

end Theia
